import Mathlib

/-!
Verification of the OgreInterface interface-construction and registration-search
code (`OgreInterface/surfaces.py`, `OgreInterface/miller.py`) against its
natural-language specification.

The Python code is shallowly embedded: numpy float arithmetic is modelled by
exact rational arithmetic (`ℚ`), numpy `sqrt` of a negative number (a float NaN)
is modelled by `Option` with `none` for NaN, and pymatgen structures are
modelled as immutable values (lattice + fractional coordinates), which is the
value-semantics reading the specification itself prescribes for the external
structure objects.  Quantities that are irrational in the source (Gaussian
widths and raw amplitudes, which carry a square root and a factor of pi) are
tracked through their squares or through monotone surrogates, with comments at
each definition.
-/

/-- `np.mod(x, 1)`: the representative of `x` in `[0, 1)`.  Used by pymatgen
`translate_sites` with `to_unit_cell=True`. -/
def fract1 (q : ℚ) : ℚ := q - ⌊q⌋

/-- A fractional (or cartesian) coordinate triple, modelling one row of a
numpy `(n, 3)` coordinate array. -/
structure Vec3 where
  x : ℚ
  y : ℚ
  z : ℚ
deriving DecidableEq, Repr

def Vec3.add (a b : Vec3) : Vec3 := ⟨a.x + b.x, a.y + b.y, a.z + b.z⟩

def Vec3.neg (a : Vec3) : Vec3 := ⟨-a.x, -a.y, -a.z⟩

/-- Componentwise `np.mod(·, 1)` applied by `translate_sites(..., to_unit_cell=True)`. -/
def wrapUnitCell (v : Vec3) : Vec3 := ⟨fract1 v.x, fract1 v.y, fract1 v.z⟩

/-- The mutable fields of `Interface` that `shift_film` reads or writes
(`surfaces.py`, class `Interface`).  `to_frac` models
`self.interface.lattice.get_fractional_coords`, the fixed cartesian-to-fractional
linear map of the interface lattice; none of the verified claims depend on its
matrix entries, so it is carried as an abstract function of the state. -/
structure InterfaceState where
  frac_coords : List Vec3
  film_part : List Vec3
  to_frac : Vec3 → Vec3
  interface_height : ℚ
  interfacial_distance : ℚ

/-- `film_ind = np.where((frac_coords[:,-1] > interface_height) & (frac_coords[:,-1] < 0.99))[0]`
(`surfaces.py` line 283), as a predicate on a site coordinate. -/
def filmIndPred (s : InterfaceState) (c : Vec3) : Bool :=
  decide (s.interface_height < c.z) && decide (c.z < 99 / 100)

/-- pymatgen `Structure.translate_sites(indices, vector)` with the default
`to_unit_cell=True`, for an index set given by a predicate on the (pre-call)
coordinates. -/
def translate_sites (coords : List Vec3) (p : Vec3 → Bool) (v : Vec3) : List Vec3 :=
  coords.map (fun c => if p c then wrapUnitCell (c.add v) else c)

/-- The common tail of `Interface.shift_film` (`surfaces.py` lines 283-306)
once `frac_shift` has been computed: translate the film sites, and in
`inplace` mode also translate `film_part` and update the two bookkeeping
scalars (`interface_height += frac_shift[-1] / 2`,
`interfacial_distance += shift[-1]`, where `shift` is the raw argument).
In the non-inplace branch the state is returned untouched together with the
translated copy (the two bookkeeping updates are commented out in the source). -/
def applyShift (s : InterfaceState) (frac_shift shift : Vec3) (inplace : Bool) :
    InterfaceState × Option (List Vec3) :=
  if inplace then
    ({ s with
        frac_coords := translate_sites s.frac_coords (filmIndPred s) frac_shift
        film_part := s.film_part.map (fun c => wrapUnitCell (c.add frac_shift))
        interface_height := s.interface_height + frac_shift.z / 2
        interfacial_distance := s.interfacial_distance + shift.z }, none)
  else
    (s, some (translate_sites s.frac_coords (filmIndPred s) frac_shift))

/-- `Interface.shift_film(shift, fractional, inplace)` (`surfaces.py` lines 272-306).
In cartesian mode (`fractional = false`) it raises
`ValueError` when `shift[-1] + interfacial_distance < 0.5`, before any state is
touched; otherwise `frac_shift = lattice.get_fractional_coords(shift)`.
In fractional mode `frac_shift = shift` and there is no check. -/
def shift_film (s : InterfaceState) (shift : Vec3) (fractional inplace : Bool) :
    Except String (InterfaceState × Option (List Vec3)) :=
  if fractional then
    Except.ok (applyShift s shift shift inplace)
  else
    if shift.z + s.interfacial_distance < 1 / 2 then
      Except.error ("InvalidShift")
    else
      Except.ok (applyShift s (s.to_frac shift) shift inplace)

/-- Whether a call result is a raised error. -/
def isErr {β : Type} : Except String β → Bool
  | Except.error _ => true
  | Except.ok _ => false

/-- The state of the `Interface` object after a call with result `r`:
unchanged when the call raised (the raise precedes every mutation in the
source), otherwise the state component of the result. -/
def postState (s : InterfaceState) : Except String (InterfaceState × Option (List Vec3)) →
    InterfaceState
  | Except.error _ => s
  | Except.ok (t, _) => t

/-- The coordinates of the structure the caller observes after a call with
result `r`: the updated interface in `inplace` mode, the returned translated
copy otherwise. -/
def postCoords (s : InterfaceState) : Except String (InterfaceState × Option (List Vec3)) →
    List Vec3
  | Except.error _ => s.frac_coords
  | Except.ok (t, none) => t.frac_coords
  | Except.ok (_, some coords) => coords

/-- Whether the `shift_film` call raised (`ValueError` in the source). -/
def shift_film_errored (s : InterfaceState) (shift : Vec3) (fractional inplace : Bool) : Bool :=
  isErr (shift_film s shift fractional inplace)

/-- The `Interface` state after the `shift_film` call. -/
def shift_film_state (s : InterfaceState) (shift : Vec3) (fractional inplace : Bool) :
    InterfaceState :=
  postState s (shift_film s shift fractional inplace)

/-- The observed structure coordinates after the `shift_film` call. -/
def shift_film_result_coords (s : InterfaceState) (shift : Vec3) (fractional inplace : Bool) :
    List Vec3 :=
  postCoords s (shift_film s shift fractional inplace)

/-- Unfolding equation for a cartesian-mode call. -/
theorem shift_film_cart_def (s : InterfaceState) (v : Vec3) (inplace : Bool) :
    shift_film s v false inplace =
      if v.z + s.interfacial_distance < 1 / 2 then Except.error ("InvalidShift")
      else Except.ok (applyShift s (s.to_frac v) v inplace) := rfl

/-- Unfolding equation for a fractional-mode call. -/
theorem shift_film_frac_def (s : InterfaceState) (v : Vec3) (inplace : Bool) :
    shift_film s v true inplace = Except.ok (applyShift s v v inplace) := rfl

/-- A concrete interface state used by the witnesses: two sites, a film part,
identity lattice conversion, height 1/2, interfacial distance 2 angstroms. -/
def demoState : InterfaceState where
  frac_coords := [⟨0, 0, 1/4⟩, ⟨0, 0, 3/4⟩]
  film_part := [⟨0, 0, 3/4⟩]
  to_frac := fun v => v
  interface_height := 1/2
  interfacial_distance := 2

/-- C2: for every cartesian (`fractional = false`) shift vector, `shift_film`
raises exactly when `shift.z + interfacial_distance < 0.5`, and when it raises
the interface state (site coordinates, `interfacial_distance`,
`interface_height`) is left exactly as it was. -/
theorem shift_film_invalid_iff (s : InterfaceState) (v : Vec3) (inplace : Bool) :
    (shift_film_errored s v false inplace = true ↔
      v.z + s.interfacial_distance < 1 / 2)
    ∧ (v.z + s.interfacial_distance < 1 / 2 →
      shift_film_state s v false inplace = s) := by
  constructor
  · by_cases h : v.z + s.interfacial_distance < 1 / 2
    · rw [shift_film_errored, shift_film_cart_def, if_pos h]
      exact iff_of_true rfl h
    · rw [shift_film_errored, shift_film_cart_def, if_neg h]
      exact iff_of_false (by simp [isErr]) h
  · intro h
    rw [shift_film_state, shift_film_cart_def, if_pos h]
    rfl

/-- Witness for C2 at a concrete state and shift. -/
theorem shift_film_invalid_iff_witness :
    shift_film_errored demoState ⟨0, 0, -(19/10)⟩ false true = true
    ∧ shift_film_state demoState ⟨0, 0, -(19/10)⟩ false true = demoState := by
  have h := shift_film_invalid_iff demoState ⟨0, 0, -(19/10)⟩ true
  have hc : (Vec3.mk 0 0 (-(19/10))).z + demoState.interfacial_distance < 1 / 2 := by
    norm_num [demoState]
  exact ⟨h.1.mpr hc, h.2 hc⟩

/-- C3: a valid (non-raising) `shift_film` call with `inplace = false` returns
the untouched state together with a translated copy of the coordinates; in
particular the caller's `frac_coords`, `interfacial_distance` and
`interface_height` are identical before and after the call. -/
theorem shift_film_not_inplace_pure (s : InterfaceState) (v : Vec3) (fractional : Bool)
    (h : shift_film_errored s v fractional false = false) :
    shift_film s v fractional false =
      Except.ok (s, some (translate_sites s.frac_coords (filmIndPred s)
        (if fractional then v else s.to_frac v)))
    ∧ shift_film_state s v fractional false = s := by
  cases fractional with
  | true => exact ⟨rfl, rfl⟩
  | false =>
    by_cases hc : v.z + s.interfacial_distance < 1 / 2
    · rw [shift_film_errored, shift_film_cart_def, if_pos hc] at h
      simp [isErr] at h
    · constructor
      · rw [shift_film_cart_def, if_neg hc]
        rfl
      · rw [shift_film_state, shift_film_cart_def, if_neg hc]
        rfl

/-- Witness for C3 at a concrete state and shift. -/
theorem shift_film_not_inplace_pure_witness :
    shift_film demoState ⟨1/10, 0, 1/10⟩ false false =
      Except.ok (demoState, some (translate_sites demoState.frac_coords (filmIndPred demoState)
        (if false then ⟨1/10, 0, 1/10⟩ else demoState.to_frac ⟨1/10, 0, 1/10⟩)))
    ∧ shift_film_state demoState ⟨1/10, 0, 1/10⟩ false false = demoState :=
  shift_film_not_inplace_pure demoState ⟨1/10, 0, 1/10⟩ false (by
    rw [shift_film_errored, shift_film_cart_def, if_neg (by norm_num [demoState])]
    rfl)

/-- C8: for a cartesian in-place shift accepted by `shift_film` (and a state
whose interfacial distance is at least 0.5 angstroms, so that the reverse call
is accepted too), shifting by `v` and then by `-v` restores
`interfacial_distance` exactly (exact arithmetic models the floating-point
tolerance of the claim). -/
theorem shift_film_roundtrip (s : InterfaceState) (v : Vec3)
    (h1 : ¬ (v.z + s.interfacial_distance < 1 / 2))
    (h2 : 1 / 2 ≤ s.interfacial_distance) :
    (shift_film_state (shift_film_state s v false true) v.neg false true).interfacial_distance
      = s.interfacial_distance := by
  have hs1 : (shift_film_state s v false true).interfacial_distance
      = s.interfacial_distance + v.z := by
    rw [shift_film_state, shift_film_cart_def, if_neg h1]
    rfl
  have h2' : ¬ ((Vec3.neg v).z + (shift_film_state s v false true).interfacial_distance
      < 1 / 2) := by
    rw [hs1]
    simp only [Vec3.neg]
    intro hlt
    apply absurd h2
    push_neg
    linarith
  have hs2 : (shift_film_state (shift_film_state s v false true) v.neg false true).interfacial_distance
      = (shift_film_state s v false true).interfacial_distance + (Vec3.neg v).z := by
    rw [shift_film_state, shift_film_cart_def, if_neg h2']
    rfl
  rw [hs2, hs1]
  simp [Vec3.neg]

/-- Witness for C8 at a concrete state and shift. -/
theorem shift_film_roundtrip_witness :
    (shift_film_state (shift_film_state demoState ⟨0, 0, 1⟩ false true)
        (Vec3.neg ⟨0, 0, 1⟩) false true).interfacial_distance
      = demoState.interfacial_distance :=
  shift_film_roundtrip demoState ⟨0, 0, 1⟩ (by norm_num [demoState]) (by norm_num [demoState])

/-- C10: in fractional mode `shift_film` performs no minimum-distance check:
every fractional shift (in particular one whose z component drives the
interfacial distance below 0.5 angstroms) raises no error, and the translation
is applied to the film sites of the observed structure. -/
theorem shift_film_fractional_no_check (s : InterfaceState) (v : Vec3) (inplace : Bool) :
    shift_film_errored s v true inplace = false
    ∧ shift_film_result_coords s v true inplace
        = translate_sites s.frac_coords (filmIndPred s) v := by
  cases inplace <;> exact ⟨rfl, rfl⟩

/-- `np.min` over a list (junk value 0 on the empty list, on which numpy
raises; the stacking code only ever applies it to nonempty slabs). -/
def listMinQ : List ℚ → ℚ
  | [] => 0
  | x :: xs => xs.foldl min x

/-- `np.max` over a list (junk value 0 on the empty list). -/
def listMaxQ : List ℚ → ℚ
  | [] => 0
  | x :: xs => xs.foldl max x

/-- The inputs of `Interface._stack_interface` (`surfaces.py` lines 472-521):
the strained substrate and film supercell coordinates and the scalar geometry
parameters. -/
structure StackInput where
  sub_coords : List Vec3
  film_coords : List Vec3
  sub_c_len : ℚ
  film_c_len : ℚ
  vacuum : ℚ
  interfacial_distance : ℚ

/-- `interface_c_len` (`surfaces.py` lines 485-490). -/
def interface_c_len (i : StackInput) : ℚ :=
  (listMaxQ (i.sub_coords.map Vec3.z) - listMinQ (i.sub_coords.map Vec3.z)) * i.sub_c_len
  + (listMaxQ (i.film_coords.map Vec3.z) - listMinQ (i.film_coords.map Vec3.z)) * i.film_c_len
  + i.vacuum + i.interfacial_distance

/-- The coordinate assembly of `_stack_interface` before the external
space-group refinement calls (`surfaces.py` lines 492-521): rescale the z
components of both slabs, shift each slab to its place in the stack,
concatenate substrate below film, and wrap into the unit cell
(`Structure(..., to_unit_cell=True)`). -/
def stacked_coords (i : StackInput) : List Vec3 :=
  let L := interface_c_len i
  let subScaled := i.sub_coords.map (fun c => Vec3.mk c.x c.y (c.z * (i.sub_c_len / L)))
  let filmScaled := i.film_coords.map (fun c => Vec3.mk c.x c.y (c.z * (i.film_c_len / L)))
  let subMin := listMinQ (subScaled.map Vec3.z)
  let subSize := listMaxQ (subScaled.map Vec3.z) - subMin
  let filmMin := listMinQ (filmScaled.map Vec3.z)
  let subShifted := subScaled.map (fun c => Vec3.mk c.x c.y (c.z - subMin))
  let filmShifted := filmScaled.map
    (fun c => Vec3.mk c.x c.y (c.z - filmMin + subSize + i.interfacial_distance / L))
  (subShifted ++ filmShifted).map wrapUnitCell

/-- Supporting lemma for claim C1: up to the external refinement calls
(`get_reduced_structure`, `get_conventional_standard_structure`,
`get_primitive_structure`, which are pymatgen/spglib services outside this
repository), the stacked interface holds exactly one site per substrate
supercell site plus one per film supercell site.  The final count of
`_stack_interface` depends on those external calls and is not settled here. -/
theorem stacked_coords_length (i : StackInput) :
    (stacked_coords i).length = i.sub_coords.length + i.film_coords.length := by
  simp [stacked_coords]

/-- `film_part` as built at the end of `_stack_interface` (`surfaces.py`
lines 562-569): starting from a copy of the refined structure,
`remove_sites(sub_sites)` deletes the sites with fractional height strictly
below `interface_height`, so the view keeps every site whose height is not
below it. -/
def film_part_of (coords : List Vec3) (h : ℚ) : List Vec3 :=
  coords.filter (fun c => ! decide (c.z < h))

/-- `sub_part` as built at the end of `_stack_interface`:
`remove_sites(film_sites)` deletes the sites strictly above `interface_height`,
keeping every site whose height is not above it. -/
def sub_part_of (coords : List Vec3) (h : ℚ) : List Vec3 :=
  coords.filter (fun c => ! decide (h < c.z))

/-- The site list of the concrete refined structure used in the C9
counterexample: one site below, one exactly at, and one above the interface
height 1/2. -/
def splitDemoCoords : List Vec3 := [⟨0, 0, 1/4⟩, ⟨0, 0, 1/2⟩, ⟨0, 0, 3/4⟩]

/-- C9 counterexample: the split views do not partition the sites by strict
comparison with `interface_height`.  At the concrete structure
`splitDemoCoords` with `interface_height = 1/2`, the site at height exactly
1/2 belongs to both `film_part` and `sub_part`, although its height is not
strictly greater (nor strictly smaller) than `interface_height`; so it is not
true that every site belongs to exactly one view, nor that `film_part` holds
exactly the strictly-higher sites. -/
theorem split_views_counterexample :
    (⟨0, 0, 1/2⟩ : Vec3) ∈ film_part_of splitDemoCoords (1/2)
    ∧ (⟨0, 0, 1/2⟩ : Vec3) ∈ sub_part_of splitDemoCoords (1/2)
    ∧ ¬ ((1:ℚ)/2 > 1/2) := by
  refine ⟨?_, ?_, by norm_num⟩ <;> norm_num [film_part_of, sub_part_of, splitDemoCoords]

/-- C9 amended: `film_part` consists exactly of the sites with fractional
height greater than or equal to `interface_height` and `sub_part` of those
with height less than or equal to it; every site belongs to at least one view,
sites strictly above or below the boundary belong to exactly one, and a site
can belong to both views only if its height equals `interface_height`. -/
theorem split_views_characterization (coords : List Vec3) (h : ℚ) (c : Vec3) :
    (c ∈ film_part_of coords h ↔ c ∈ coords ∧ h ≤ c.z)
    ∧ (c ∈ sub_part_of coords h ↔ c ∈ coords ∧ c.z ≤ h)
    ∧ (c ∈ coords → c ∈ film_part_of coords h ∨ c ∈ sub_part_of coords h)
    ∧ (c ∈ film_part_of coords h → c ∈ sub_part_of coords h → c.z = h) := by
  have hf : c ∈ film_part_of coords h ↔ c ∈ coords ∧ h ≤ c.z := by
    simp [film_part_of, not_lt]
  have hs : c ∈ sub_part_of coords h ↔ c ∈ coords ∧ c.z ≤ h := by
    simp [sub_part_of, not_lt]
  refine ⟨hf, hs, ?_, ?_⟩
  · intro hc
    rcases le_total h c.z with hle | hle
    · exact Or.inl (hf.mpr ⟨hc, hle⟩)
    · exact Or.inr (hs.mpr ⟨hc, hle⟩)
  · intro h1 h2
    exact le_antisymm ((hs.mp h2).2) ((hf.mp h1).2)

/-- Witness for C9 amended at a concrete structure, height and site. -/
theorem split_views_characterization_witness :
    ((⟨0, 0, 3/4⟩ : Vec3) ∈ film_part_of splitDemoCoords (1/2) ↔
      (⟨0, 0, 3/4⟩ : Vec3) ∈ splitDemoCoords ∧ (1:ℚ)/2 ≤ (Vec3.mk 0 0 (3/4)).z)
    ∧ ((⟨0, 0, 3/4⟩ : Vec3) ∈ sub_part_of splitDemoCoords (1/2) ↔
      (⟨0, 0, 3/4⟩ : Vec3) ∈ splitDemoCoords ∧ (Vec3.mk 0 0 (3/4)).z ≤ 1/2)
    ∧ ((⟨0, 0, 3/4⟩ : Vec3) ∈ splitDemoCoords →
      (⟨0, 0, 3/4⟩ : Vec3) ∈ film_part_of splitDemoCoords (1/2)
      ∨ (⟨0, 0, 3/4⟩ : Vec3) ∈ sub_part_of splitDemoCoords (1/2))
    ∧ ((⟨0, 0, 3/4⟩ : Vec3) ∈ film_part_of splitDemoCoords (1/2) →
      (⟨0, 0, 3/4⟩ : Vec3) ∈ sub_part_of splitDemoCoords (1/2) →
      (Vec3.mk 0 0 (3/4)).z = 1/2) :=
  split_views_characterization splitDemoCoords (1/2) ⟨0, 0, 3/4⟩

/-- `np.max` of a nonempty array, generically (`none` models the numpy error
on an empty array). -/
def npMax {β : Type} [LinearOrder β] : List β → Option β
  | [] => none
  | x :: xs => some (xs.foldl max x)

/-- `np.min` of a nonempty array. -/
def npMin {β : Type} [LinearOrder β] : List β → Option β
  | [] => none
  | x :: xs => some (xs.foldl min x)

theorem le_foldl_max_self {β : Type} [LinearOrder β] (xs : List β) (x : β) :
    x ≤ xs.foldl max x := by
  induction xs generalizing x with
  | nil => exact le_refl x
  | cons y ys ih => exact (le_max_left x y).trans (ih (max x y))

theorem foldl_max_le {β : Type} [LinearOrder β] (xs : List β) (x a : β)
    (h : a = x ∨ a ∈ xs) : a ≤ xs.foldl max x := by
  induction xs generalizing x with
  | nil =>
    rcases h with h | h
    · exact le_of_eq h
    · cases h
  | cons y ys ih =>
    rcases h with h | h
    · calc a ≤ max x y := h ▸ le_max_left x y
        _ ≤ ys.foldl max (max x y) := le_foldl_max_self ys (max x y)
    · rcases List.mem_cons.mp h with h | h
      · calc a ≤ max x y := h ▸ le_max_right x y
          _ ≤ ys.foldl max (max x y) := le_foldl_max_self ys (max x y)
      · exact ih (max x y) (Or.inr h)

theorem foldl_max_mem {β : Type} [LinearOrder β] (xs : List β) (x : β) :
    xs.foldl max x = x ∨ xs.foldl max x ∈ xs := by
  induction xs generalizing x with
  | nil => exact Or.inl rfl
  | cons y ys ih =>
    rcases ih (max x y) with h | h
    · rcases max_choice x y with hm | hm
      · exact Or.inl (h.trans hm)
      · exact Or.inr (List.mem_cons.mpr (Or.inl (h.trans hm)))
    · exact Or.inr (List.mem_cons.mpr (Or.inr h))

theorem le_of_npMax_eq {β : Type} [LinearOrder β] {l : List β} {m : β}
    (hm : npMax l = some m) {a : β} (ha : a ∈ l) : a ≤ m := by
  cases l with
  | nil => cases ha
  | cons x xs =>
    cases Option.some.inj hm
    rcases List.mem_cons.mp ha with h | h
    · exact foldl_max_le xs x a (Or.inl h)
    · exact foldl_max_le xs x a (Or.inr h)

theorem npMax_mem {β : Type} [LinearOrder β] {l : List β} {m : β}
    (hm : npMax l = some m) : m ∈ l := by
  cases l with
  | nil => cases hm
  | cons x xs =>
    cases Option.some.inj hm
    rcases foldl_max_mem xs x with h | h
    · exact List.mem_cons.mpr (Or.inl h)
    · exact List.mem_cons.mpr (Or.inr h)

theorem foldl_min_le_self {β : Type} [LinearOrder β] (xs : List β) (x : β) :
    xs.foldl min x ≤ x := by
  induction xs generalizing x with
  | nil => exact le_refl x
  | cons y ys ih => exact (ih (min x y)).trans (min_le_left x y)

theorem foldl_min_le {β : Type} [LinearOrder β] (xs : List β) (x a : β)
    (h : a = x ∨ a ∈ xs) : xs.foldl min x ≤ a := by
  induction xs generalizing x with
  | nil =>
    rcases h with h | h
    · exact le_of_eq h.symm
    · cases h
  | cons y ys ih =>
    rcases h with h | h
    · calc ys.foldl min (min x y) ≤ min x y := foldl_min_le_self ys (min x y)
        _ ≤ a := h ▸ min_le_left x y
    · rcases List.mem_cons.mp h with h | h
      · calc ys.foldl min (min x y) ≤ min x y := foldl_min_le_self ys (min x y)
          _ ≤ a := h ▸ min_le_right x y
      · exact ih (min x y) (Or.inr h)

theorem foldl_min_mem {β : Type} [LinearOrder β] (xs : List β) (x : β) :
    xs.foldl min x = x ∨ xs.foldl min x ∈ xs := by
  induction xs generalizing x with
  | nil => exact Or.inl rfl
  | cons y ys ih =>
    rcases ih (min x y) with h | h
    · rcases min_choice x y with hm | hm
      · exact Or.inl (h.trans hm)
      · exact Or.inr (List.mem_cons.mpr (Or.inl (h.trans hm)))
    · exact Or.inr (List.mem_cons.mpr (Or.inr h))

theorem npMin_le {β : Type} [LinearOrder β] {l : List β} {m : β}
    (hm : npMin l = some m) {a : β} (ha : a ∈ l) : m ≤ a := by
  cases l with
  | nil => cases ha
  | cons x xs =>
    cases Option.some.inj hm
    rcases List.mem_cons.mp ha with h | h
    · exact foldl_min_le xs x a (Or.inl h)
    · exact foldl_min_le xs x a (Or.inr h)

theorem npMin_mem {β : Type} [LinearOrder β] {l : List β} {m : β}
    (hm : npMin l = some m) : m ∈ l := by
  cases l with
  | nil => cases hm
  | cons x xs =>
    cases Option.some.inj hm
    rcases foldl_min_mem xs x with h | h
    · exact List.mem_cons.mpr (Or.inl h)
    · exact List.mem_cons.mpr (Or.inr h)

theorem npMax_isSome {β : Type} [LinearOrder β] (x : β) (xs : List β) :
    npMax (x :: xs) = some (xs.foldl max x) := rfl

/-- `np.argmax(map f l)` followed by indexing `l`: the first element of `l`
whose `f` value attains the maximum. -/
def argmax_by {α β : Type} [LinearOrder β] [DecidableEq β] (f : α → β) (l : List α) :
    Option α :=
  l.find? (fun a => decide (some (f a) = npMax (l.map f)))

/-- `np.argmin(map f l)` followed by indexing `l`. -/
def argmin_by {α β : Type} [LinearOrder β] [DecidableEq β] (f : α → β) (l : List α) :
    Option α :=
  l.find? (fun a => decide (some (f a) = npMin (l.map f)))

theorem argmax_by_mem {α β : Type} [LinearOrder β] [DecidableEq β] {f : α → β}
    {l : List α} {a : α} (h : argmax_by f l = some a) : a ∈ l :=
  List.mem_of_find?_eq_some h

theorem argmax_by_le {α β : Type} [LinearOrder β] [DecidableEq β] {f : α → β}
    {l : List α} {a : α} (h : argmax_by f l = some a) {b : α} (hb : b ∈ l) :
    f b ≤ f a := by
  have hp := List.find?_some h
  have heq : some (f a) = npMax (l.map f) := of_decide_eq_true hp
  exact le_of_npMax_eq heq.symm (List.mem_map_of_mem f hb)

theorem argmax_by_isSome {α β : Type} [LinearOrder β] [DecidableEq β] (f : α → β)
    {l : List α} (hl : l ≠ []) : (argmax_by f l).isSome := by
  rw [argmax_by, List.find?_isSome]
  cases l with
  | nil => exact absurd rfl hl
  | cons x xs =>
    have hm : npMax ((x :: xs).map f) = some ((xs.map f).foldl max (f x)) := rfl
    have hmem : ((xs.map f).foldl max (f x)) ∈ (x :: xs).map f := npMax_mem hm
    rcases List.mem_map.mp hmem with ⟨a, ha, hfa⟩
    exact ⟨a, ha, by rw [decide_eq_true_eq, hfa, hm]⟩

theorem argmin_by_mem {α β : Type} [LinearOrder β] [DecidableEq β] {f : α → β}
    {l : List α} {a : α} (h : argmin_by f l = some a) : a ∈ l :=
  List.mem_of_find?_eq_some h

theorem argmin_by_le {α β : Type} [LinearOrder β] [DecidableEq β] {f : α → β}
    {l : List α} {a : α} (h : argmin_by f l = some a) {b : α} (hb : b ∈ l) :
    f a ≤ f b := by
  have hp := List.find?_some h
  have heq : some (f a) = npMin (l.map f) := of_decide_eq_true hp
  exact npMin_le heq.symm (List.mem_map_of_mem f hb)

theorem argmin_by_isSome {α β : Type} [LinearOrder β] [DecidableEq β] (f : α → β)
    {l : List α} (hl : l ≠ []) : (argmin_by f l).isSome := by
  rw [argmin_by, List.find?_isSome]
  cases l with
  | nil => exact absurd rfl hl
  | cons x xs =>
    have hm : npMin ((x :: xs).map f) = some ((xs.map f).foldl min (f x)) := rfl
    have hmem : ((xs.map f).foldl min (f x)) ∈ (x :: xs).map f := npMin_mem hm
    rcases List.mem_map.mp hmem with ⟨a, ha, hfa⟩
    exact ⟨a, ha, by rw [decide_eq_true_eq, hfa, hm]⟩

/-- An integer Miller-index triple (`miller.py`). -/
structure MillerIdx where
  h : ℤ
  k : ℤ
  l : ℤ
deriving DecidableEq, Repr

def MillerIdx.neg (p : MillerIdx) : MillerIdx := ⟨-p.h, -p.k, -p.l⟩

/-- `np.sum(np.sign(plane))`. -/
def signSum (p : MillerIdx) : ℤ := p.h.sign + p.k.sign + p.l.sign

/-- `diff = np.abs(np.sum(np.sign(equivalent_planes), axis=1))`
(`miller.py` line 188): the first tie-break key of
`_get_unique_miller_indices` is the absolute value of the signed sign sum. -/
def abs_signSum (p : MillerIdx) : ℤ := |signSum p|

/-- `like_signs = equivalent_planes[diff == np.max(diff)]` (`miller.py` line 189). -/
def like_signs (ps : List MillerIdx) : List MillerIdx :=
  ps.filter (fun p => decide (some (abs_signSum p) = npMax (ps.map abs_signSum)))

/-- `first_max = like_signs[np.abs(like_signs)[:,0] == np.max(np.abs(like_signs)[:,0])]`
(`miller.py` lines 193-196). -/
def first_max (ps : List MillerIdx) : List MillerIdx :=
  ps.filter (fun p => decide (some |p.h| = npMax (ps.map (fun q => |q.h|))))

/-- `second_max = first_max[np.abs(first_max)[:,1] == np.max(np.abs(first_max)[:,1])]`
(`miller.py` lines 200-203). -/
def second_max (ps : List MillerIdx) : List MillerIdx :=
  ps.filter (fun p => decide (some |p.k| = npMax (ps.map (fun q => |q.k|))))

/-- The canonical-representative selection chain of
`_get_unique_miller_indices` (`miller.py` lines 186-211): filter by maximal
`abs_signSum`, then by maximal first component magnitude, then second, and
finally take `second_max[np.argmax(np.sign(second_max).sum(axis=1))]` (the
first element attaining the maximal signed sign sum). -/
def select_canonical (ps : List MillerIdx) : Option MillerIdx :=
  let ls := like_signs ps
  if ls.length = 1 then ls.head?
  else
    let fm := first_max ls
    if fm.length = 1 then fm.head?
    else
      let sm := second_max fm
      if sm.length = 1 then sm.head?
      else argmax_by signSum sm

/-- The claimed first tie-break rule, modelled from the claim words for
comparison with the code: the number of components with non-negative sign. -/
def count_nonneg (p : MillerIdx) : ℤ :=
  (if 0 ≤ p.h then 1 else 0) + (if 0 ≤ p.k then 1 else 0) + (if 0 ≤ p.l then 1 else 0)

/-- The claimed rule (i), modelled from the claim words: keep the planes
maximizing the count of non-negative components. -/
def like_signs_spec (ps : List MillerIdx) : List MillerIdx :=
  ps.filter (fun p => decide (some (count_nonneg p) = npMax (ps.map count_nonneg)))

/-- C4 counterexample: on the class consisting of `(1,1,1)` and its negation
(all components nonzero), the code first rule keeps both planes (it maximizes
the absolute value of the signed sign sum, under which a plane and its
negation always tie), so rule (i) does not alone decide between them; the
claimed count-of-non-negative-components rule would keep only `(1,1,1)`.  The
final representative is still `(1,1,1)`, but it is chosen by the last rule
(maximal signed sum), not by rule (i). -/
theorem miller_rule_i_counterexample :
    like_signs [⟨1, 1, 1⟩, ⟨-1, -1, -1⟩] = [⟨1, 1, 1⟩, ⟨-1, -1, -1⟩]
    ∧ (like_signs [⟨1, 1, 1⟩, ⟨-1, -1, -1⟩]).length ≠ 1
    ∧ like_signs_spec [⟨1, 1, 1⟩, ⟨-1, -1, -1⟩] = [⟨1, 1, 1⟩]
    ∧ select_canonical [⟨1, 1, 1⟩, ⟨-1, -1, -1⟩] = some ⟨1, 1, 1⟩ := by
  refine ⟨by decide, by decide, by decide, by decide⟩

theorem int_sign_cases (a : ℤ) (ha : a ≠ 0) : a.sign = 1 ∨ a.sign = -1 := by
  rcases lt_trichotomy a 0 with hc | hc | hc
  · exact Or.inr (Int.sign_eq_neg_one_of_neg hc)
  · exact absurd hc ha
  · exact Or.inl (Int.sign_eq_one_of_pos hc)

theorem signSum_neg (t : MillerIdx) : signSum t.neg = - signSum t := by
  simp only [MillerIdx.neg, signSum, Int.sign_neg]
  ring

theorem signSum_ne_zero (t : MillerIdx) (hh : t.h ≠ 0) (hk : t.k ≠ 0) (hl : t.l ≠ 0) :
    signSum t ≠ 0 := by
  rcases int_sign_cases t.h hh with h1 | h1 <;>
    rcases int_sign_cases t.k hk with h2 | h2 <;>
      rcases int_sign_cases t.l hl with h3 | h3 <;>
        simp [signSum, h1, h2, h3]

/-- C4 amended: for a symmetry class holding a plane and its negation with all
components nonzero, the code first rule keeps both (a triple and its negation
always tie under the maximal-absolute-sign-sum filter), rules (ii) and (iii)
also keep both, and the final rule -- maximize the signed component-sign sum --
decides, selecting whichever of the two has positive sign sum. -/
theorem select_canonical_negation_pair (t : MillerIdx)
    (hh : t.h ≠ 0) (hk : t.k ≠ 0) (hl : t.l ≠ 0) :
    (like_signs [t, t.neg]).length = 2
    ∧ select_canonical [t, t.neg] = some (if 0 < signSum t then t else t.neg) := by
  have hS : signSum t ≠ 0 := signSum_ne_zero t hh hk hl
  have hns : signSum t.neg = - signSum t := signSum_neg t
  have habs : abs_signSum t.neg = abs_signSum t := by
    simp [abs_signSum, hns]
  have hls : like_signs [t, t.neg] = [t, t.neg] := by
    simp [like_signs, npMax, habs]
  have hfm : first_max [t, t.neg] = [t, t.neg] := by
    simp [first_max, npMax, MillerIdx.neg]
  have hsm : second_max [t, t.neg] = [t, t.neg] := by
    simp [second_max, npMax, MillerIdx.neg]
  have harg : argmax_by signSum [t, t.neg] = some (if 0 < signSum t then t else t.neg) := by
    by_cases hpos : 0 < signSum t
    · have hmax : max (signSum t) (signSum t.neg) = signSum t := by
        rw [hns]; exact max_eq_left (by linarith)
      rw [argmax_by]
      simp only [List.map_cons, List.map_nil, npMax, List.foldl_cons, List.foldl_nil]
      rw [List.find?_cons_of_pos _ (by simp [hmax]), if_pos hpos]
    · have hneg : signSum t < 0 := lt_of_le_of_ne (not_lt.mp hpos) hS
      have hmax : max (signSum t) (signSum t.neg) = signSum t.neg := by
        rw [hns]; exact max_eq_right (by linarith)
      rw [argmax_by]
      simp only [List.map_cons, List.map_nil, npMax, List.foldl_cons, List.foldl_nil]
      rw [List.find?_cons_of_neg _ (by simp [hmax, hns]; omega),
        List.find?_cons_of_pos _ (by simp [hmax]), if_neg hpos]
  constructor
  · rw [hls]
    rfl
  · rw [select_canonical]
    simp only [hls, hfm, hsm]
    rw [if_neg (by simp), if_neg (by simp), if_neg (by simp)]
    exact harg

/-- Witness for C4 amended at the concrete class of `(1,-1,1)` and its negation. -/
theorem select_canonical_negation_pair_witness :
    (like_signs [⟨1, -1, 1⟩, MillerIdx.neg ⟨1, -1, 1⟩]).length = 2
    ∧ select_canonical [⟨1, -1, 1⟩, MillerIdx.neg ⟨1, -1, 1⟩]
        = some (if 0 < signSum ⟨1, -1, 1⟩ then ⟨1, -1, 1⟩ else MillerIdx.neg ⟨1, -1, 1⟩) :=
  select_canonical_negation_pair ⟨1, -1, 1⟩ (by decide) (by decide) (by decide)

theorem normSq_nonneg_aux (p : MillerIdx) : (0:ℤ) ≤ p.h^2 + p.k^2 + p.l^2 := by positivity

/-- `np.linalg.norm(x)^2`: the squared euclidean norm of an index triple.
The float sort key `np.linalg.norm(x)` orders triples exactly as the integer
squared norm does, since the square root is strictly monotone. -/
def normSq (p : MillerIdx) : ℤ := p.h^2 + p.k^2 + p.l^2

/-- The sort order of `sorted(unique_planes, key=lambda x: (np.linalg.norm(x),
-np.sign(x).sum()))` (`miller.py` lines 214-216): ascending euclidean norm,
ties broken by descending sign sum. -/
def miller_sort_le (p q : MillerIdx) : Bool :=
  decide (normSq p < normSq q ∨ (normSq p = normSq q ∧ signSum q ≤ signSum p))

/-- The final sort of `_get_unique_miller_indices`. -/
def sort_unique_planes (ps : List MillerIdx) : List MillerIdx :=
  ps.mergeSort miller_sort_le

/-- C7: the canonical index list returned by the enumerator is a permutation
of its input sorted by ascending euclidean norm, with ties broken by
descending sum of component signs. -/
theorem sort_unique_planes_sorted (ps : List MillerIdx) :
    (sort_unique_planes ps).Pairwise (fun p q =>
      Real.sqrt ((normSq p : ℝ)) < Real.sqrt ((normSq q : ℝ))
      ∨ (Real.sqrt ((normSq p : ℝ)) = Real.sqrt ((normSq q : ℝ))
          ∧ signSum q ≤ signSum p))
    ∧ (sort_unique_planes ps).Perm ps := by
  constructor
  · have hs := @List.sorted_mergeSort MillerIdx miller_sort_le
      (fun a b c hab hbc => by
        simp only [miller_sort_le, decide_eq_true_eq] at *
        rcases hab with hlt | ⟨heq, hsg⟩ <;> rcases hbc with hlt2 | ⟨heq2, hsg2⟩
        · exact Or.inl (hlt.trans hlt2)
        · exact Or.inl (heq2 ▸ hlt)
        · exact Or.inl (heq ▸ hlt2)
        · exact Or.inr ⟨heq.trans heq2, hsg2.trans hsg⟩)
      (fun a b => by
        simp only [miller_sort_le, Bool.or_eq_true, decide_eq_true_eq]
        omega)
      ps
    refine hs.imp ?_
    intro p q hpq
    simp only [miller_sort_le, decide_eq_true_eq] at hpq
    rcases hpq with hlt | ⟨heq, hsg⟩
    · refine Or.inl (Real.sqrt_lt_sqrt ?_ (by exact_mod_cast hlt))
      have := normSq_nonneg_aux p
      rw [normSq]
      exact_mod_cast this
    · exact Or.inr ⟨by rw [heq], hsg⟩
  · exact List.mergeSort_perm ps miller_sort_le

/-- One clustered basin representative of the registration optimizer
(`surfaces.py`, `run_surface_matching`): `(cx, cy)` is the cartesian cluster
center (a row of `all_centers_orig`) and `po`, `psub`, `pfilm` are the
corresponding entries of `PES_values_orig`, `PES_values_sub` and
`PES_values_film` (the primary landscape value and the two depth-corrected
landscape values at that center). -/
structure Cand where
  cx : ℚ
  cy : ℚ
  po : ℚ
  psub : ℚ
  pfilm : ℚ
deriving DecidableEq, Repr

/-- Round half to even at integer precision (numpy rounding, idealized to
exact arithmetic). -/
def roundHalfEven (q : ℚ) : ℤ :=
  if q - ⌊q⌋ < 1/2 then ⌊q⌋
  else if 1/2 < q - ⌊q⌋ then ⌊q⌋ + 1
  else if 2 ∣ ⌊q⌋ then ⌊q⌋ else ⌊q⌋ + 1

/-- `np.round(q, 4)`. -/
def round4 (q : ℚ) : ℚ := (roundHalfEven (q * 10000) : ℚ) / 10000

/-- `PES_rank_values_1 = np.round(PES_values_orig, 4)` (`surfaces.py` line 1612). -/
def rank1 (c : Cand) : ℚ := round4 c.po

/-- `PES_rank_values_2 = np.round(PES_values_orig + PES_values_sub + PES_values_film, 4)`
(`surfaces.py` line 1619). -/
def rank2 (c : Cand) : ℚ := round4 (c.po + c.psub + c.pfilm)

/-- The squared distance of a center to the cell origin.
`np.linalg.norm(min_centers_orig[u], axis=1)` is compared between centers
only, and the square root is strictly monotone, so the squared norm induces
the same `argmin`. -/
def dist2 (c : Cand) : ℚ := c.cx^2 + c.cy^2

/-- `degenerate_min_inds = (PES_rank_values_1 == unique_PES_values_1[0])`
(`surfaces.py` lines 1613-1618): keep the candidates whose rounded primary
value attains the minimum (`np.unique` sorts ascending, so entry 0 is the
minimum). -/
def survivors (cs : List Cand) : List Cand :=
  cs.filter (fun c => decide (some (rank1 c) = npMin (cs.map rank1)))

/-- Insertion step of an ascending sort. -/
def insertAsc (a : ℚ) : List ℚ → List ℚ
  | [] => [a]
  | b :: bs => if a ≤ b then a :: b :: bs else b :: insertAsc a bs

/-- Ascending insertion sort. -/
def sortAsc (l : List ℚ) : List ℚ := l.foldr insertAsc []

/-- `np.unique`: the ascending list of distinct values. -/
def uniqueSorted (l : List ℚ) : List ℚ := (sortAsc l).dedup

theorem mem_insertAsc (a x : ℚ) (l : List ℚ) : x ∈ insertAsc a l ↔ x = a ∨ x ∈ l := by
  induction l with
  | nil => simp [insertAsc]
  | cons b bs ih =>
    by_cases hab : a ≤ b
    · simp [insertAsc, hab]
    · simp only [insertAsc, if_neg hab, List.mem_cons, ih]
      tauto

theorem mem_sortAsc (x : ℚ) (l : List ℚ) : x ∈ sortAsc l ↔ x ∈ l := by
  induction l with
  | nil => exact Iff.rfl
  | cons b bs ih =>
    rw [sortAsc, List.foldr_cons, mem_insertAsc]
    rw [sortAsc] at ih
    rw [ih, List.mem_cons]

theorem mem_uniqueSorted (x : ℚ) (l : List ℚ) : x ∈ uniqueSorted l ↔ x ∈ l := by
  rw [uniqueSorted, List.mem_dedup, mem_sortAsc]

/-- `unique_shift_inds = [u[np.argmin(np.linalg.norm(min_centers_orig[u], axis=1))] for u in unique_inds]`
(`surfaces.py` lines 1620-1622): one representative per distinct rounded
secondary value (ascending), namely the first candidate of minimal distance to
the origin within that group. -/
def group_reps (ss : List Cand) : List Cand :=
  (uniqueSorted (ss.map rank2)).filterMap
    (fun u => argmin_by dist2 (ss.filter (fun c => decide (rank2 c = u))))

/-- `min_shift_inds = unique_shift_inds[np.argmax(PES_rank_values_2[unique_shift_inds])]`
(`surfaces.py` line 1624) and the returned `min_center_orig`: the
representative attaining the largest rounded secondary value.  The `argmin`
variant is commented out in the source immediately above. -/
def choose_registration (cs : List Cand) : Option Cand :=
  argmax_by rank2 (group_reps (survivors cs))

/-- The concrete candidate list of the C5 counterexample: two cluster centers
with equal rounded primary values, distinct secondary sums. -/
def cexCands : List Cand := [⟨0, 0, 1, 0, 0⟩, ⟨1, 0, 1, 1, 0⟩]

theorem round4_one : round4 1 = 1 := by
  norm_num [round4, roundHalfEven]

theorem round4_two : round4 2 = 2 := by
  norm_num [round4, roundHalfEven]

/-- C5 counterexample: the optimizer does not return the lowest-scoring
representative under the claimed ordering.  On `cexCands` both candidates
survive the primary ranking; the candidate at the origin has the smaller
rounded secondary sum (1 against 2), yet the code (`np.argmax` over the
secondary values, `surfaces.py` line 1624) selects the other one. -/
theorem choose_registration_counterexample :
    choose_registration cexCands = some ⟨1, 0, 1, 1, 0⟩
    ∧ (⟨0, 0, 1, 0, 0⟩ : Cand) ∈ group_reps (survivors cexCands)
    ∧ rank2 (⟨0, 0, 1, 0, 0⟩ : Cand) < rank2 (⟨1, 0, 1, 1, 0⟩ : Cand) := by
  have h1 : rank1 (⟨0, 0, 1, 0, 0⟩ : Cand) = 1 := by
    rw [rank1]; exact round4_one
  have h2 : rank1 (⟨1, 0, 1, 1, 0⟩ : Cand) = 1 := by
    rw [rank1]; exact round4_one
  have h3 : rank2 (⟨0, 0, 1, 0, 0⟩ : Cand) = 1 := by
    rw [rank2]; norm_num; exact round4_one
  have h4 : rank2 (⟨1, 0, 1, 1, 0⟩ : Cand) = 2 := by
    rw [rank2]; norm_num; exact round4_two
  refine ⟨?_, ?_, ?_⟩
  · simp [choose_registration, group_reps, survivors, uniqueSorted, sortAsc, insertAsc,
      argmin_by, argmax_by, npMin, npMax, cexCands, h1, h2, h3, h4, dist2]
  · simp [group_reps, survivors, uniqueSorted, sortAsc, insertAsc,
      argmin_by, npMin, npMax, cexCands, h1, h2, h3, h4, dist2]
  · rw [h3, h4]; norm_num

theorem group_reps_mem {ss : List Cand} {c : Cand} (h : c ∈ group_reps ss) :
    c ∈ ss ∧ ∀ d ∈ ss, rank2 d = rank2 c → dist2 c ≤ dist2 d := by
  rcases List.mem_filterMap.mp h with ⟨u, _, harg⟩
  have hcf := argmin_by_mem harg
  have hcu : rank2 c = u := of_decide_eq_true (List.mem_filter.mp hcf).2
  refine ⟨(List.mem_filter.mp hcf).1, ?_⟩
  intro d hd hdc
  have hdf : d ∈ ss.filter (fun e => decide (rank2 e = u)) :=
    List.mem_filter.mpr ⟨hd, decide_eq_true (hdc.trans hcu)⟩
  exact argmin_by_le harg hdf

theorem group_reps_cover {ss : List Cand} {d : Cand} (hd : d ∈ ss) :
    ∃ r ∈ group_reps ss, rank2 r = rank2 d := by
  have humem : rank2 d ∈ uniqueSorted (ss.map rank2) :=
    (mem_uniqueSorted _ _).mpr (List.mem_map_of_mem rank2 hd)
  have hne : ss.filter (fun c => decide (rank2 c = rank2 d)) ≠ [] := by
    intro hnil
    have hmem : d ∈ ss.filter (fun c => decide (rank2 c = rank2 d)) :=
      List.mem_filter.mpr ⟨hd, by simp⟩
    rw [hnil] at hmem
    cases hmem
  obtain ⟨r, hr⟩ := Option.isSome_iff_exists.mp (argmin_by_isSome dist2 hne)
  refine ⟨r, List.mem_filterMap.mpr ⟨rank2 d, humem, hr⟩, ?_⟩
  exact of_decide_eq_true (List.mem_filter.mp (argmin_by_mem hr)).2

/-- C5 amended: the optimizer keeps the candidates of minimal rounded primary
value, picks within each group of equal rounded secondary sum the
representative closest to the cell origin, and returns the representative
whose rounded secondary sum (primary plus the two depth-corrected values) is
the largest -- not the lowest -- among those groups. -/
theorem choose_registration_characterization (cs : List Cand) (c : Cand)
    (h : choose_registration cs = some c) :
    c ∈ survivors cs
    ∧ (∀ d ∈ cs, rank1 c ≤ rank1 d)
    ∧ (∀ d ∈ survivors cs, rank2 d ≤ rank2 c)
    ∧ (∀ d ∈ survivors cs, rank2 d = rank2 c → dist2 c ≤ dist2 d) := by
  have hmem := argmax_by_mem h
  have hgr := group_reps_mem hmem
  refine ⟨hgr.1, ?_, ?_, fun d hd hdc => hgr.2 d hd hdc⟩
  · intro d hd
    have h1 : some (rank1 c) = npMin (cs.map rank1) :=
      of_decide_eq_true (List.mem_filter.mp hgr.1).2
    exact npMin_le h1.symm (List.mem_map_of_mem rank1 hd)
  · intro d hd
    obtain ⟨r, hrmem, hr2⟩ := group_reps_cover hd
    calc rank2 d = rank2 r := hr2.symm
      _ ≤ rank2 c := argmax_by_le h hrmem

/-- Witness for C5 amended at the concrete candidate list of the
counterexample. -/
theorem choose_registration_characterization_witness :
    (⟨1, 0, 1, 1, 0⟩ : Cand) ∈ survivors cexCands
    ∧ (∀ d ∈ cexCands, rank1 (⟨1, 0, 1, 1, 0⟩ : Cand) ≤ rank1 d)
    ∧ (∀ d ∈ survivors cexCands, rank2 d ≤ rank2 (⟨1, 0, 1, 1, 0⟩ : Cand))
    ∧ (∀ d ∈ survivors cexCands, rank2 d = rank2 (⟨1, 0, 1, 1, 0⟩ : Cand) →
        dist2 (⟨1, 0, 1, 1, 0⟩ : Cand) ≤ dist2 d) := by
  refine choose_registration_characterization cexCands ⟨1, 0, 1, 1, 0⟩ ?_
  have h1 : rank1 (⟨0, 0, 1, 0, 0⟩ : Cand) = 1 := by
    rw [rank1]; exact round4_one
  have h2 : rank1 (⟨1, 0, 1, 1, 0⟩ : Cand) = 1 := by
    rw [rank1]; exact round4_one
  have h3 : rank2 (⟨0, 0, 1, 0, 0⟩ : Cand) = 1 := by
    rw [rank2]; norm_num; exact round4_one
  have h4 : rank2 (⟨1, 0, 1, 1, 0⟩ : Cand) = 2 := by
    rw [rank2]; norm_num; exact round4_two
  simp [choose_registration, group_reps, survivors, uniqueSorted, sortAsc, insertAsc,
    argmin_by, argmax_by, npMin, npMax, cexCands, h1, h2, h3, h4, dist2]

/-- One substrate-film atom pair as seen by
`Interface._get_score_function_params` (`surfaces.py` lines 781-848): the two
characteristic radii and the cartesian vertical separation `z` of the pair
(the z component of `cart_shifts`, constant across the nine periodic images). -/
structure SPair where
  r1 : ℚ
  r2 : ℚ
  z : ℚ
deriving DecidableEq, Repr

/-- The argument of the square root in
`overlap_r = np.sqrt((r1p + r2p)**2 - cart_shifts[:,-1]**2)` (line 841). -/
def overlapSq (p : SPair) : ℚ := (p.r1 + p.r2)^2 - p.z^2

/-- The square of the Gaussian width `sigmas = overlap_r / 3` (line 844).
When `overlapSq` is negative, `np.sqrt` returns NaN, modelled as `none`; the
width itself is the irrational `sqrt (overlapSq p) / 3`, so it is tracked by
its square, which is rational. -/
def sigmaSq (p : SPair) : Option ℚ :=
  if 0 ≤ overlapSq p then some (overlapSq p / 9) else none

/-- The cube of the overlap-sphere radius, a monotone surrogate for the raw
amplitude `scales = (4/3) * np.pi * overlap_r**3` (line 845): the raw
amplitude is `(4/3) * pi * sqrt (overlapSq p) ^ 3`, and two raw amplitudes
compare exactly as the rational values `overlapSq ^ 3` do.  NaN is `none`. -/
def rawScaleCube (p : SPair) : Option ℚ :=
  if 0 ≤ overlapSq p then some ((overlapSq p)^3) else none

/-- `scales.max()` (line 846) on the raw-amplitude surrogates: a numpy `max`
over an array with a NaN entry is NaN, so the result is `none` as soon as any
pair has negative `overlapSq`. -/
def maxRawCube (ps : List SPair) : Option ℚ :=
  if ps.all (fun p => decide (0 ≤ overlapSq p)) then
    npMax (ps.map (fun p => (overlapSq p)^3))
  else none

/-- The square of the renormalized amplitude `scales /= scales.max()`
(line 846) of pair `p` within pair list `ps`: the pi factors cancel in the
quotient, leaving `sqrt ((overlapSq p)^3 / m^3)` with `m` the maximal
`overlapSq`; the square of that quotient is rational and is `none` exactly
when numpy produces NaN (a negative `overlapSq` anywhere, or a zero maximal
raw amplitude dividing zero). -/
def normScaleSq (ps : List SPair) (p : SPair) : Option ℚ :=
  match rawScaleCube p, maxRawCube ps with
  | some r, some m => if 0 < m then some (r / m) else none
  | _, _ => none

/-- The single far pair of the C6 counterexample: radii 1 and 1, vertical
separation 3, which exceeds the radius sum 2. -/
def farPair : SPair := ⟨1, 1, 3⟩

/-- C6 counterexample: a pair whose vertical separation exceeds the sum of its
radii does not contribute zero to the landscape.  For `farPair` the source
takes the square root of the negative number `(1+1)^2 - 3^2 = -5`, so the pair
width and amplitude are NaN (`none`), not zero, and the NaN even poisons the
global amplitude normalization. -/
theorem score_params_far_pair_counterexample :
    overlapSq farPair < 0
    ∧ sigmaSq farPair = none
    ∧ normScaleSq [farPair] farPair = none
    ∧ ¬ (normScaleSq [farPair] farPair = some 0) := by
  have hneg : overlapSq farPair < 0 := by
    norm_num [overlapSq, farPair]
  refine ⟨hneg, ?_, ?_, ?_⟩
  · rw [sigmaSq, if_neg (not_le.mpr hneg)]
  · rw [normScaleSq, rawScaleCube, if_neg (not_le.mpr hneg)]
  · rw [normScaleSq, rawScaleCube, if_neg (not_le.mpr hneg)]
    simp

/-- C6 amended: for every pair list, a pair whose vertical separation exceeds
the sum of its radii gets NaN (undefined) width and amplitude rather than a
zero contribution; when every pair is within contact range (and the maximal
raw amplitude is positive), the squared width is `overlapSq / 9` -- the width
is the effective contact radius over 3 -- and the squared amplitude is the raw
amplitude surrogate divided by the maximal one over all pairs. -/
theorem score_params_behavior :
    (∀ (ps : List SPair) (p : SPair), (p.r1 + p.r2)^2 < p.z^2 →
      sigmaSq p = none ∧ normScaleSq ps p = none)
    ∧ (∀ (ps : List SPair) (p : SPair) (m : ℚ), p ∈ ps → maxRawCube ps = some m → 0 < m →
      sigmaSq p = some (overlapSq p / 9)
      ∧ normScaleSq ps p = some ((overlapSq p)^3 / m)) := by
  constructor
  · intro ps p hfar
    have hneg : ¬ (0 ≤ overlapSq p) := by
      rw [overlapSq]
      push_neg
      linarith
    constructor
    · rw [sigmaSq, if_neg hneg]
    · rw [normScaleSq, rawScaleCube, if_neg hneg]
  · intro ps p m hp hm hmpos
    have hall : ps.all (fun q => decide (0 ≤ overlapSq q)) := by
      by_contra hno
      rw [maxRawCube, if_neg hno] at hm
      cases hm
    have hppos : 0 ≤ overlapSq p := by
      have := List.all_eq_true.mp hall p hp
      exact of_decide_eq_true this
    constructor
    · rw [sigmaSq, if_pos hppos]
    · rw [normScaleSq, rawScaleCube, if_pos hppos, hm]
      exact if_pos hmpos

/-- Witness for C6 amended: the far branch at `farPair`, and the in-contact
branch at a pair list whose single pair has radii 1, 1 and separation 1. -/
theorem score_params_behavior_witness :
    (sigmaSq farPair = none ∧ normScaleSq [farPair] farPair = none)
    ∧ (sigmaSq ⟨1, 1, 1⟩ = some (overlapSq ⟨1, 1, 1⟩ / 9)
      ∧ normScaleSq [⟨1, 1, 1⟩] ⟨1, 1, 1⟩ = some ((overlapSq ⟨1, 1, 1⟩)^3 / 27)) := by
  constructor
  · exact score_params_behavior.1 [farPair] farPair (by norm_num [farPair])
  · refine score_params_behavior.2 [⟨1, 1, 1⟩] ⟨1, 1, 1⟩ 27 (by simp) ?_ (by norm_num)
    rw [maxRawCube, if_pos (by norm_num [overlapSq])]
    norm_num [npMax, overlapSq]
